import Mathlib

/-!
Verification of the Cloud-Dataset-Generator mask/join/tiling core.

Shallow embedding of:
  src/modules/mask_processing.py
    - generate_cloud_shadow_masks_sentinel2 (mask synthesis + morphological
      refinement via focal_min then focal_max)
    - remove_small_components (8-connected component filtering via
      scipy.ndimage.label with generate_binary_structure(2, 2))
  src/modules/ee_utils.py
    - merge_s2_and_cloud_prob (inner join on system:index, band merge)
    - make_grid (tile grid over a projected bounding box)

Earth Engine images are per-pixel expression graphs; they are embedded as
grids of values indexed by pixel coordinates, and the per-pixel operators
(eq, neq, gt, lt, And, Or, Not, divide) as the corresponding operations on
values.  Numeric bands use ℚ (the code manipulates exact decimal thresholds
and integer digital counts), the SCL classification band uses ℤ, boolean
mask bands use Bool.
-/

namespace CloudGen

/-! ## Mask Synthesizer: generate_cloud_shadow_masks_sentinel2, band rules

The function receives an image with bands SCL, probability and B8.  A scene
record carries those three pixel grids over an h × w raster. -/

/-- The bands of a joined Sentinel-2 scene needed by the mask synthesizer:
SCL (integer classification codes), probability (0-100), B8 (raw NIR digital
counts). -/
structure SceneRecord (h w : ℕ) where
  scl : Fin h → Fin w → ℤ
  probability : Fin h → Fin w → ℚ
  b8 : Fin h → Fin w → ℚ

variable {h w : ℕ}

/-- nir = image.select('B8').divide(10000), per pixel. -/
def nir (img : SceneRecord h w) (i : Fin h) (j : Fin w) : ℚ :=
  img.b8 i j / 10000

/-- bright_cloud = nir.gt(cloud_nir_threshold). -/
def bright_cloud (cloud_nir_threshold : ℚ) (img : SceneRecord h w)
    (i : Fin h) (j : Fin w) : Bool :=
  nir img i j > cloud_nir_threshold

/-- cloud_mask_scl = (scl.eq 8 .Or scl.eq 9 .Or scl.eq 10 .Or scl.eq 11).And bright_cloud. -/
def cloud_mask_scl (cloud_nir_threshold : ℚ) (img : SceneRecord h w)
    (i : Fin h) (j : Fin w) : Bool :=
  (((img.scl i j == 8) || (img.scl i j == 9) || (img.scl i j == 10)
      || (img.scl i j == 11)))
    && bright_cloud cloud_nir_threshold img i j

/-- cloud_mask_prob = cloud_prob.gt(threshold).And(bright_cloud).And(scl.neq 5).And(scl.neq 7). -/
def cloud_mask_prob (cloud_prob_threshold cloud_nir_threshold : ℚ)
    (img : SceneRecord h w) (i : Fin h) (j : Fin w) : Bool :=
  (img.probability i j > cloud_prob_threshold)
    && bright_cloud cloud_nir_threshold img i j
    && !(img.scl i j == 5)
    && !(img.scl i j == 7)

/-- combined_cloud_mask = cloud_mask_scl.Or(cloud_mask_prob): the raw cloud
mask before morphological refinement. -/
def combined_cloud_mask (cloud_prob_threshold cloud_nir_threshold : ℚ)
    (img : SceneRecord h w) (i : Fin h) (j : Fin w) : Bool :=
  cloud_mask_scl cloud_nir_threshold img i j
    || cloud_mask_prob cloud_prob_threshold cloud_nir_threshold img i j

/-- shadow_mask_scl = scl.eq(3). -/
def shadow_mask_scl (img : SceneRecord h w) (i : Fin h) (j : Fin w) : Bool :=
  img.scl i j == 3

/-- water_mask = scl.eq(6). -/
def water_mask (img : SceneRecord h w) (i : Fin h) (j : Fin w) : Bool :=
  img.scl i j == 6

/-- shadow_mask_dark = nir.lt(nir_threshold).And(water_mask.Not()). -/
def shadow_mask_dark (nir_threshold : ℚ) (img : SceneRecord h w)
    (i : Fin h) (j : Fin w) : Bool :=
  (nir img i j < nir_threshold) && !(water_mask img i j)

/-- combined_shadow_mask = shadow_mask_scl.Or(shadow_mask_dark): the raw
shadow mask before morphological refinement. -/
def combined_shadow_mask (nir_threshold : ℚ) (img : SceneRecord h w)
    (i : Fin h) (j : Fin w) : Bool :=
  shadow_mask_scl img i j || shadow_mask_dark nir_threshold img i j

/-- A one-pixel scene used to check concrete scenarios at a pixel. -/
def onePixelScene (s : ℤ) (p b : ℚ) : SceneRecord 1 1 :=
  ⟨fun _ _ => s, fun _ _ => p, fun _ _ => b⟩

end CloudGen

namespace CloudGen

/-- C1: the raw cloud mask is set at a pixel exactly when
(SCL ∈ \x7b8, 9, 10, 11\x7d and nir > cloud_nir_threshold) or
(probability > cloud_prob_threshold and nir > cloud_nir_threshold and
SCL ≠ 5 and SCL ≠ 7), where nir = B8 / 10000, pixel-independently. -/
theorem combined_cloud_mask_spec {h w : ℕ} (img : SceneRecord h w)
    (cloud_prob_threshold cloud_nir_threshold : ℚ) (i : Fin h) (j : Fin w) :
    combined_cloud_mask cloud_prob_threshold cloud_nir_threshold img i j = true ↔
      (((img.scl i j = 8 ∨ img.scl i j = 9 ∨ img.scl i j = 10 ∨ img.scl i j = 11)
          ∧ img.b8 i j / 10000 > cloud_nir_threshold)
        ∨ (img.probability i j > cloud_prob_threshold
            ∧ img.b8 i j / 10000 > cloud_nir_threshold
            ∧ img.scl i j ≠ 5 ∧ img.scl i j ≠ 7)) := by
  simp [combined_cloud_mask, cloud_mask_scl, cloud_mask_prob, bright_cloud, nir]
  tauto

/-- C2: the raw shadow mask is set at a pixel exactly when SCL = 3 or
(nir < nir_threshold and SCL ≠ 6), with nir = B8 / 10000; and at a pixel with
SCL = 6 and nir = 0.05 the shadow mask is 0. -/
theorem combined_shadow_mask_spec :
    (∀ (h w : ℕ) (img : SceneRecord h w) (nir_threshold : ℚ) (i : Fin h) (j : Fin w),
      combined_shadow_mask nir_threshold img i j = true ↔
        (img.scl i j = 3
          ∨ (img.b8 i j / 10000 < nir_threshold ∧ img.scl i j ≠ 6)))
    ∧ combined_shadow_mask (2/10) (onePixelScene 6 0 500) 0 0 = false := by
  constructor
  · intro h w img nir_threshold i j
    simp [combined_shadow_mask, shadow_mask_scl, shadow_mask_dark, water_mask, nir]
  · norm_num [combined_shadow_mask, shadow_mask_scl, shadow_mask_dark, water_mask,
      nir, onePixelScene]

/-- C7: raising cloud_prob_threshold only shrinks the probability-rule
contribution to the cloud mask: a pixel set by cloud_mask_prob at the higher
threshold is set at the lower one, all other inputs fixed. -/
theorem cloud_mask_prob_antitone {h w : ℕ} (img : SceneRecord h w)
    (t1 t2 cloud_nir_threshold : ℚ) (i : Fin h) (j : Fin w) (hle : t1 ≤ t2)
    (hset : cloud_mask_prob t2 cloud_nir_threshold img i j = true) :
    cloud_mask_prob t1 cloud_nir_threshold img i j = true := by
  simp only [cloud_mask_prob, Bool.and_eq_true, decide_eq_true_eq] at hset ⊢
  exact ⟨⟨⟨lt_of_le_of_lt hle hset.1.1.1, hset.1.1.2⟩, hset.1.2⟩, hset.2⟩

/-- Witness for C7: at the one-pixel scene with SCL = 4, probability = 70,
B8 = 4000, thresholds 40 ≤ 50 and nir threshold 0.3, the mask set at 50
is set at 40. -/
theorem cloud_mask_prob_antitone_witness :
    cloud_mask_prob 40 (3/10) (onePixelScene 4 70 4000) 0 0 = true :=
  cloud_mask_prob_antitone (onePixelScene 4 70 4000) 40 50 (3/10) 0 0
    (by norm_num) (by norm_num [cloud_mask_prob, bright_cloud, nir, onePixelScene])

end CloudGen

namespace CloudGen

/-! ## Morphological Refiner: focal_min then focal_max

combined.focal_min(morphology_radius).focal_max(morphology_radius) is an
opening on a binary raster.  A BinaryMask over an h × w grid is embedded as
a Bool-valued function on ℤ × ℤ supported inside the grid; per the contract
out-of-grid neighbors are treated as background, which the grid restriction
makes automatic.  The neighborhood of radius r is the square of offsets with
both coordinates in [-r, r]. -/

/-- A boolean raster indexed by integer pixel coordinates. -/
abbrev GMask := ℤ → ℤ → Bool

/-- Whether (i, j) lies inside the h × w grid. -/
def inGridB (h w : ℕ) (i j : ℤ) : Bool :=
  decide (0 ≤ i ∧ i < (h : ℤ) ∧ 0 ≤ j ∧ j < (w : ℤ))

/-- Clamp a raster to the grid: out-of-grid pixels are background. -/
def restrictGrid (h w : ℕ) (m : GMask) : GMask :=
  fun i j => m i j && inGridB h w i j

/-- The square structuring element of radius r: offsets with both
coordinates in [-r, r]. -/
def offs (r : ℕ) : Finset (ℤ × ℤ) :=
  Finset.Icc (-(r : ℤ)) r ×ˢ Finset.Icc (-(r : ℤ)) r

/-- focal_min with radius r: a pixel stays foreground only if every pixel of
its radius-r neighborhood is foreground (erosion). -/
def focal_min (r : ℕ) (m : GMask) : GMask :=
  fun i j => decide (∀ d ∈ offs r, m (i + d.1) (j + d.2) = true)

/-- focal_max with radius r: a pixel becomes foreground if any pixel of its
radius-r neighborhood is foreground (dilation). -/
def focal_max (r : ℕ) (m : GMask) : GMask :=
  fun i j => decide (∃ d ∈ offs r, m (i + d.1) (j + d.2) = true)

/-- The Morphological Refiner: mask.focal_min(r).focal_max(r) on the h × w
grid, out-of-grid neighbors treated as background. -/
def morphRefine (h w r : ℕ) (m : GMask) : GMask :=
  restrictGrid h w (focal_max r (focal_min r (restrictGrid h w m)))

theorem zero_mem_offs (r : ℕ) : ((0, 0) : ℤ × ℤ) ∈ offs r := by
  simp [offs, Finset.mem_product]

theorem neg_mem_offs {r : ℕ} {d : ℤ × ℤ} (hd : d ∈ offs r) :
    ((-d.1, -d.2) : ℤ × ℤ) ∈ offs r := by
  simp [offs, Finset.mem_product] at hd ⊢
  omega

theorem restrictGrid_idem (h w : ℕ) (m : GMask) :
    restrictGrid h w (restrictGrid h w m) = restrictGrid h w m := by
  funext i j
  simp [restrictGrid, Bool.and_assoc]

theorem restrictGrid_true {h w : ℕ} {m : GMask} {i j : ℤ}
    (hm : restrictGrid h w m i j = true) : inGridB h w i j = true := by
  simp only [restrictGrid, Bool.and_eq_true] at hm
  exact hm.2

theorem focal_min_mono {r : ℕ} {a b : GMask}
    (hab : ∀ i j, a i j = true → b i j = true) {i j : ℤ}
    (ha : focal_min r a i j = true) : focal_min r b i j = true := by
  simp only [focal_min, decide_eq_true_eq] at ha ⊢
  exact fun d hd => hab _ _ (ha d hd)

/-- Opening shrinks: a pixel of focal_max (focal_min m) is a pixel of m. -/
theorem focal_open_le {r : ℕ} {m : GMask} {i j : ℤ}
    (hm : focal_max r (focal_min r m) i j = true) : m i j = true := by
  simp only [focal_max, focal_min, decide_eq_true_eq] at hm
  obtain ⟨d, hd, hall⟩ := hm
  have := hall (-d.1, -d.2) (neg_mem_offs hd)
  simpa using this

/-- The erosion of the opening equals the erosion: focal_min absorbs one
round of opening. -/
theorem focal_min_open_eq (r : ℕ) (m : GMask) :
    focal_min r (focal_max r (focal_min r m)) = focal_min r m := by
  funext i j
  by_cases hm : focal_min r m i j = true
  · have : focal_min r (focal_max r (focal_min r m)) i j = true := by
      simp only [focal_min, decide_eq_true_eq] at hm ⊢
      intro d hd
      simp only [focal_max, decide_eq_true_eq]
      refine ⟨(-d.1, -d.2), neg_mem_offs hd, ?_⟩
      simp only [add_assoc, add_neg_cancel, add_zero]
      simp only [focal_min, decide_eq_true_eq]
      exact hm
    rw [this, hm]
  · have : ¬ focal_min r (focal_max r (focal_min r m)) i j = true := by
      intro hcon
      exact hm (focal_min_mono (fun a b hab => focal_open_le hab) hcon)
    simp only [Bool.not_eq_true] at this hm
    rw [this, hm]

/-- The opening of a grid mask is grid-supported, so the outer grid clamp
leaves it unchanged pointwise. -/
theorem open_restrict_supported (h w r : ℕ) (m : GMask) :
    restrictGrid h w (focal_max r (focal_min r (restrictGrid h w m)))
      = focal_max r (focal_min r (restrictGrid h w m)) := by
  funext i j
  by_cases hm : focal_max r (focal_min r (restrictGrid h w m)) i j = true
  · have hin : inGridB h w i j = true := restrictGrid_true (focal_open_le hm)
    simp [restrictGrid, hm, hin]
  · simp only [Bool.not_eq_true] at hm
    simp [restrictGrid, hm]

/-- C8: applying the Morphological Refiner twice with the same radius yields
the same result as applying it once, for every mask, radius and grid:
opening is idempotent. -/
theorem morphRefine_idem (h w r : ℕ) (m : GMask) :
    morphRefine h w r (morphRefine h w r m) = morphRefine h w r m := by
  unfold morphRefine
  rw [open_restrict_supported, restrictGrid_idem, open_restrict_supported,
    focal_min_open_eq]

end CloudGen

namespace CloudGen

theorem offs_zero : offs 0 = ({((0 : ℤ), (0 : ℤ))} : Finset (ℤ × ℤ)) := by
  have h0 : Finset.Icc (-((0 : ℕ) : ℤ)) ((0 : ℕ) : ℤ) = ({0} : Finset ℤ) := by
    norm_num
  rw [offs, h0, Finset.singleton_product_singleton]

theorem focal_min_zero (m : GMask) : focal_min 0 m = m := by
  funext i j
  simp only [focal_min, offs_zero, Finset.mem_singleton, forall_eq, add_zero]
  cases hm : m i j <;> simp [hm]

theorem focal_max_zero (m : GMask) : focal_max 0 m = m := by
  funext i j
  simp only [focal_max, offs_zero, Finset.mem_singleton, exists_eq_left, add_zero]
  cases hm : m i j <;> simp [hm]

/-- C9: the Morphological Refiner with radius 0 returns every grid-supported
mask unchanged: erosion and dilation with a radius-0 neighborhood are the
identity. -/
theorem morphRefine_zero (h w : ℕ) (m : GMask)
    (hsupp : restrictGrid h w m = m) : morphRefine h w 0 m = m := by
  unfold morphRefine
  rw [hsupp, focal_min_zero, focal_max_zero, hsupp]

/-- Witness for C9: a concrete all-foreground 2 × 2 grid mask is returned
unchanged by the radius-0 refiner. -/
theorem morphRefine_zero_witness :
    morphRefine 2 2 0 (restrictGrid 2 2 (fun _ _ => true))
      = restrictGrid 2 2 (fun _ _ => true) :=
  morphRefine_zero 2 2 (restrictGrid 2 2 (fun _ _ => true))
    (restrictGrid_idem 2 2 (fun _ _ => true))

end CloudGen

namespace CloudGen

/-! ## Collection Joiner: merge_s2_and_cloud_prob

ee.Join.inner with ee.Filter.equals on system:index emits one feature per
pair of primary/secondary records with equal index; merge_bands then maps
each pair to primary.addBands(secondary.select('probability')).  Collections
are embedded as lists of images, an image as its system:index key together
with its named bands. -/

/-- An image of a collection: its system:index identity key and its named
bands, the band payload type left abstract. -/
structure EImage (β : Type) where
  index : String
  bands : List (String × β)

/-- image.select(name): the bands of the image whose name matches. -/
def selectBand {β : Type} (img : EImage β) (name : String) : List (String × β) :=
  img.bands.filter (fun b => b.1 == name)

/-- primary.addBands(bs): appends bands, keeping the primary's identity and
existing bands. -/
def addBands {β : Type} (p : EImage β) (bs : List (String × β)) : EImage β :=
  ⟨p.index, p.bands ++ bs⟩

/-- ee.Join.inner().apply(primary, secondary, ee.Filter.equals(system:index)):
one pair per primary/secondary match on the identity key. -/
def innerJoinPairs {β : Type} (primary secondary : List (EImage β)) :
    List (EImage β × EImage β) :=
  primary.flatMap fun p =>
    (secondary.filter (fun s => s.index == p.index)).map (fun s => (p, s))

/-- merge_bands: combined = primary.addBands(secondary.select('probability')). -/
def merge_bands {β : Type} (pr : EImage β × EImage β) : EImage β :=
  addBands pr.1 (selectBand pr.2 "probability")

/-- merge_s2_and_cloud_prob: the joined collection mapped through merge_bands. -/
def merge_s2_and_cloud_prob {β : Type} (s2_sr_col s2_cp_col : List (EImage β)) :
    List (EImage β) :=
  (innerJoinPairs s2_sr_col s2_cp_col).map merge_bands

theorem countP_flatMap {α β : Type} (l : List α) (f : α → List β) (q : β → Bool) :
    (l.flatMap f).countP q = (l.map fun x => (f x).countP q).sum := by
  induction l with
  | nil => simp
  | cons a t ih => simp [List.flatMap_cons, List.countP_append, ih]

theorem merge_count_aux {β : Type} (s2_sr_col s2_cp_col : List (EImage β))
    (hp : (s2_sr_col.map EImage.index).Nodup) (k : String) :
    (merge_s2_and_cloud_prob s2_sr_col s2_cp_col).countP (fun r => r.index == k)
      = if k ∈ s2_sr_col.map EImage.index
          then s2_cp_col.countP (fun s => s.index == k) else 0 := by
  induction s2_sr_col with
  | nil => simp [merge_s2_and_cloud_prob, innerJoinPairs]
  | cons p t ih =>
    simp only [List.map_cons, List.nodup_cons] at hp
    have hstep :
        merge_s2_and_cloud_prob (p :: t) s2_cp_col
          = (s2_cp_col.filter (fun s => s.index == p.index)).map
              (fun s => merge_bands (p, s))
            ++ merge_s2_and_cloud_prob t s2_cp_col := by
      simp [merge_s2_and_cloud_prob, innerJoinPairs, List.flatMap_cons,
        List.map_append, List.map_map, Function.comp]
    rw [hstep, List.countP_append, List.countP_map, ih hp.2]
    have hconst : (s2_cp_col.filter (fun s => s.index == p.index)).countP
        ((fun r => r.index == k) ∘ fun s => merge_bands (p, s))
          = if p.index = k then s2_cp_col.countP (fun s => s.index == k) else 0 := by
      by_cases hk : p.index = k
      · rw [if_pos hk]
        have hall : ∀ s ∈ s2_cp_col.filter (fun s => s.index == p.index),
            ((fun r => r.index == k) ∘ fun s => merge_bands (p, s)) s = true := by
          intro s _
          show ((merge_bands (p, s)).index == k) = true
          simp [merge_bands, addBands, hk]
        rw [List.countP_eq_length.mpr hall, ← hk, List.countP_eq_length_filter]
      · rw [if_neg hk]
        have hnone : ∀ s ∈ s2_cp_col.filter (fun s => s.index == p.index),
            ¬ (((fun r => r.index == k) ∘ fun s => merge_bands (p, s)) s = true) := by
          intro s _
          show ¬ (((merge_bands (p, s)).index == k) = true)
          simp [merge_bands, addBands, hk]
        exact List.countP_eq_zero.mpr hnone
    rw [hconst]
    by_cases hk : p.index = k
    · subst hk
      have hnot : p.index ∉ t.map EImage.index := hp.1
      simp [hnot]
    · have hk' : ¬ (k = p.index) := fun hcon => hk hcon.symm
      simp [List.mem_cons, hk', hk]

theorem nodup_countP_key {β : Type} (col : List (EImage β))
    (hs : (col.map EImage.index).Nodup) (k : String) :
    col.countP (fun s => s.index == k)
      = if k ∈ col.map EImage.index then 1 else 0 := by
  have h1 : col.countP (fun s => s.index == k)
      = (col.map EImage.index).count k := by
    rw [List.count, List.countP_map]
    rfl
  rw [h1]
  by_cases hk : k ∈ col.map EImage.index
  · rw [List.count_eq_one_of_mem hs hk, if_pos hk]
  · rw [List.count_eq_zero_of_not_mem hk, if_neg hk]

/-- C4: with distinct identity keys in each input, the joiner emits exactly
one combined record per key present in both inputs and zero for keys present
in only one; each combined record is a matched primary record with the
matched secondary record's probability band appended to its bands. -/
theorem merge_s2_and_cloud_prob_spec {β : Type} (s2_sr_col s2_cp_col : List (EImage β))
    (hp : (s2_sr_col.map EImage.index).Nodup)
    (hs : (s2_cp_col.map EImage.index).Nodup) :
    (∀ k : String,
      (merge_s2_and_cloud_prob s2_sr_col s2_cp_col).countP (fun r => r.index == k)
        = if k ∈ s2_sr_col.map EImage.index ∧ k ∈ s2_cp_col.map EImage.index
            then 1 else 0)
    ∧ ∀ r ∈ merge_s2_and_cloud_prob s2_sr_col s2_cp_col,
        ∃ p ∈ s2_sr_col, ∃ s ∈ s2_cp_col, p.index = s.index
          ∧ r = ⟨p.index, p.bands ++ selectBand s "probability"⟩ := by
  constructor
  · intro k
    rw [merge_count_aux s2_sr_col s2_cp_col hp k]
    by_cases hk1 : k ∈ s2_sr_col.map EImage.index
    · rw [if_pos hk1, nodup_countP_key s2_cp_col hs k]
      by_cases hk2 : k ∈ s2_cp_col.map EImage.index
      · rw [if_pos hk2, if_pos ⟨hk1, hk2⟩]
      · rw [if_neg hk2, if_neg (fun hcon => hk2 hcon.2)]
    · rw [if_neg hk1, if_neg (fun hcon => hk1 hcon.1)]
  · intro r hr
    simp only [merge_s2_and_cloud_prob, innerJoinPairs, List.mem_map,
      List.mem_flatMap, List.mem_filter, beq_iff_eq] at hr
    obtain ⟨⟨p, s⟩, ⟨p', hp', ⟨s', ⟨hs', hsidx⟩, hpair⟩⟩, hrm⟩ := hr
    injection hpair with h1 h2
    subst h1
    subst h2
    exact ⟨p', hp', s', hs', hsidx.symm, by rw [← hrm]; rfl⟩

end CloudGen

namespace CloudGen

/-- A concrete primary collection for the join witness. -/
def s2wit : List (EImage ℕ) :=
  [⟨"a", [("B8", 1)]⟩, ⟨"b", [("B8", 2)]⟩]

/-- A concrete secondary collection for the join witness. -/
def cpwit : List (EImage ℕ) :=
  [⟨"b", [("probability", 9)]⟩, ⟨"c", [("probability", 7)]⟩]

/-- Witness for C4: on concrete collections with keys a, b on the left and
b, c on the right, the joiner emits exactly one record for the shared key b
and none for the unmatched key a. -/
theorem merge_s2_and_cloud_prob_spec_witness :
    (merge_s2_and_cloud_prob s2wit cpwit).countP (fun r => r.index == "b") = 1
      ∧ (merge_s2_and_cloud_prob s2wit cpwit).countP (fun r => r.index == "a") = 0 := by
  have hmain := merge_s2_and_cloud_prob_spec s2wit cpwit
    (by simp [s2wit]) (by simp [cpwit])
  constructor
  · rw [hmain.1 "b"]
    simp [s2wit, cpwit]
  · rw [hmain.1 "a"]
    simp [s2wit, cpwit]

end CloudGen

namespace CloudGen

/-! ## Tile Grid Generator: make_grid

The AOI's bounds polygon is reprojected to EPSG:3857 by the external
service; make_grid then reads the four corner coordinates, takes min/max in
each axis, computes x_tiles = ceil((x_max - x_min)/tile_size) and y_tiles
likewise, and for index pairs drawn from ee.List.sequence(0, x_tiles - 1)
and ee.List.sequence(0, y_tiles - 1) emits the rectangle from
(x_min + x_i*s, y_min + y_i*s) to (x_min + x_i*s + s, y_min + y_i*s + s),
y-major, flattened.  Coordinates are embedded as ℚ; the sequence call is
embedded for the nondegenerate case x_tiles ≥ 1 the AOI invariant
(positive area) guarantees. -/

/-- An axis-aligned tile rectangle in the projected metric system. -/
structure TileRect where
  x0 : ℚ
  y0 : ℚ
  x1 : ℚ
  y1 : ℚ
deriving DecidableEq

/-- ee.List.sequence(0, n - 1): the integer indices 0, 1, ..., n - 1. -/
def seqIdx (n : ℤ) : List ℤ :=
  (List.range n.toNat).map (fun k : ℕ => (k : ℤ))

/-- x_max.subtract(x_min).divide(tile_size).ceil(): the tile count along one
axis. -/
def tile_count (lo hi tile_size : ℚ) : ℤ :=
  ⌈(hi - lo) / tile_size⌉

/-- One tile: x0 = x_min + x_i·s, y0 = y_min + y_i·s, x1 = x0 + s, y1 = y0 + s. -/
def tileAt (x_min y_min tile_size : ℚ) (x_i y_i : ℤ) : TileRect :=
  ⟨x_min + x_i * tile_size, y_min + y_i * tile_size,
    x_min + x_i * tile_size + tile_size, y_min + y_i * tile_size + tile_size⟩

/-- The raw grid before filterBounds: y_indices.map(map_y).flatten() where
map_y maps map_x over x_indices. -/
def make_grid_raw (x_min x_max y_min y_max tile_size : ℚ) : List TileRect :=
  ((seqIdx (tile_count y_min y_max tile_size)).map fun y_i =>
    (seqIdx (tile_count x_min x_max tile_size)).map fun x_i =>
      tileAt x_min y_min tile_size x_i y_i).flatten

/-- make_grid on the four projected corner coordinates of the AOI's bounds:
x_min/x_max/y_min/y_max are min/max folds over the four corners exactly as
the code nests them, then the raw grid is generated. -/
def make_grid (region_coords : Fin 4 → ℚ × ℚ) (tile_size : ℚ) : List TileRect :=
  let x_min := min (min (min (region_coords 0).1 (region_coords 1).1)
    (region_coords 2).1) (region_coords 3).1
  let x_max := max (max (max (region_coords 0).1 (region_coords 1).1)
    (region_coords 2).1) (region_coords 3).1
  let y_min := min (min (min (region_coords 0).2 (region_coords 1).2)
    (region_coords 2).2) (region_coords 3).2
  let y_max := max (max (max (region_coords 0).2 (region_coords 1).2)
    (region_coords 2).2) (region_coords 3).2
  make_grid_raw x_min x_max y_min y_max tile_size

/-- The corner list of an axis-aligned projected bounding box, in the order
the bounds polygon carries them. -/
def rectCorners (x_min y_min x_max y_max : ℚ) : Fin 4 → ℚ × ℚ :=
  fun i => match i with
  | 0 => (x_min, y_min)
  | 1 => (x_min, y_max)
  | 2 => (x_max, y_max)
  | 3 => (x_max, y_min)

theorem make_grid_rect (x_min y_min x_max y_max tile_size : ℚ)
    (hx : x_min ≤ x_max) (hy : y_min ≤ y_max) :
    make_grid (rectCorners x_min y_min x_max y_max) tile_size
      = make_grid_raw x_min x_max y_min y_max tile_size := by
  show make_grid_raw _ _ _ _ tile_size = _
  congr 1 <;> simp [rectCorners, min_eq_left, max_eq_right, hx, hy]

theorem mem_seqIdx {n i : ℤ} : i ∈ seqIdx n ↔ 0 ≤ i ∧ i < n := by
  unfold seqIdx
  rw [List.mem_map]
  constructor
  · rintro ⟨m, hm, rfl⟩
    rw [List.mem_range] at hm
    omega
  · intro hi
    refine ⟨i.toNat, ?_, by omega⟩
    rw [List.mem_range]
    omega

theorem length_seqIdx (n : ℤ) : (seqIdx n).length = n.toNat := by
  simp [seqIdx]

theorem mem_make_grid_raw {x_min x_max y_min y_max tile_size : ℚ} {t : TileRect} :
    t ∈ make_grid_raw x_min x_max y_min y_max tile_size ↔
      ∃ y_i, (0 ≤ y_i ∧ y_i < tile_count y_min y_max tile_size)
        ∧ ∃ x_i, (0 ≤ x_i ∧ x_i < tile_count x_min x_max tile_size)
          ∧ t = tileAt x_min y_min tile_size x_i y_i := by
  simp only [make_grid_raw, List.mem_flatten, List.mem_map]
  constructor
  · rintro ⟨l, ⟨y_i, hy, rfl⟩, ht⟩
    obtain ⟨x_i, hx, rfl⟩ := List.mem_map.mp ht
    exact ⟨y_i, mem_seqIdx.mp hy, x_i, mem_seqIdx.mp hx, rfl⟩
  · rintro ⟨y_i, hy, x_i, hx, rfl⟩
    exact ⟨_, ⟨y_i, mem_seqIdx.mpr hy, rfl⟩,
      List.mem_map.mpr ⟨x_i, mem_seqIdx.mpr hx, rfl⟩⟩

end CloudGen

namespace CloudGen

/-- C5: the raw grid has exactly ceil((x_max - x_min)/s) * ceil((y_max - y_min)/s)
tiles before the AOI-intersection filter, for every nondegenerate projected
bounding box and positive tile size. -/
theorem make_grid_count (x_min x_max y_min y_max tile_size : ℚ)
    (hx : x_min < x_max) (hy : y_min < y_max) (hs : 0 < tile_size) :
    ((make_grid (rectCorners x_min y_min x_max y_max) tile_size).length : ℤ)
      = tile_count x_min x_max tile_size * tile_count y_min y_max tile_size := by
  rw [make_grid_rect _ _ _ _ _ hx.le hy.le]
  have hxt : 0 < tile_count x_min x_max tile_size := by
    rw [tile_count, Int.ceil_pos]
    exact div_pos (by linarith) hs
  have hyt : 0 < tile_count y_min y_max tile_size := by
    rw [tile_count, Int.ceil_pos]
    exact div_pos (by linarith) hs
  have hlen : (make_grid_raw x_min x_max y_min y_max tile_size).length
      = (tile_count y_min y_max tile_size).toNat
        * (tile_count x_min x_max tile_size).toNat := by
    unfold make_grid_raw
    rw [List.length_flatten, List.map_map]
    have hmap : (List.length ∘ fun y_i =>
        (seqIdx (tile_count x_min x_max tile_size)).map fun x_i =>
          tileAt x_min y_min tile_size x_i y_i)
          = fun _ : ℤ => (tile_count x_min x_max tile_size).toNat := by
      funext y_i
      simp [length_seqIdx]
    rw [hmap, List.map_const', List.sum_replicate, smul_eq_mul, length_seqIdx]
  rw [hlen]
  push_cast [Int.toNat_of_nonneg hyt.le, Int.toNat_of_nonneg hxt.le]
  ring

/-- Witness for C5: a 1000 x 1000 projected bounding box with tile size 400
yields exactly 3 * 3 = 9 raw tiles. -/
theorem make_grid_count_witness :
    ((make_grid (rectCorners 0 0 1000 1000) 400).length : ℤ) = 9 := by
  have h := make_grid_count 0 1000 0 1000 400
    (by norm_num) (by norm_num) (by norm_num)
  have h3 : tile_count (0 : ℚ) 1000 400 = 3 := by
    norm_num [tile_count, Int.ceil_eq_iff]
  rw [h, h3]
  norm_num

theorem cover_index (a b s x : ℚ) (hs : 0 < s) (hab : a < b)
    (hax : a ≤ x) (hxb : x ≤ b) :
    ∃ i : ℤ, 0 ≤ i ∧ i < tile_count a b s
      ∧ a + i * s ≤ x ∧ x ≤ a + i * s + s := by
  have hn : 0 < tile_count a b s := by
    rw [tile_count, Int.ceil_pos]
    exact div_pos (by linarith) hs
  refine ⟨min ⌊(x - a) / s⌋ (tile_count a b s - 1), ?_, ?_, ?_, ?_⟩
  · exact le_min (Int.floor_nonneg.mpr (div_nonneg (by linarith) hs.le)) (by omega)
  · exact lt_of_le_of_lt (min_le_right _ _) (by omega)
  · have h1 : ((min ⌊(x - a) / s⌋ (tile_count a b s - 1) : ℤ) : ℚ) ≤ (x - a) / s := by
      calc ((min ⌊(x - a) / s⌋ (tile_count a b s - 1) : ℤ) : ℚ)
          ≤ ((⌊(x - a) / s⌋ : ℤ) : ℚ) := by exact_mod_cast min_le_left _ _
        _ ≤ (x - a) / s := Int.floor_le _
    have h2 := (le_div_iff₀ hs).mp h1
    linarith
  · by_cases hc : ⌊(x - a) / s⌋ ≤ tile_count a b s - 1
    · rw [min_eq_left hc]
      have h2 : (x - a) / s < ((⌊(x - a) / s⌋ : ℤ) : ℚ) + 1 := Int.lt_floor_add_one _
      rw [div_lt_iff₀ hs] at h2
      linarith
    · rw [min_eq_right (by omega)]
      have h4 : (b - a) / s ≤ ((tile_count a b s : ℤ) : ℚ) := by
        rw [tile_count]
        exact Int.le_ceil _
      rw [div_le_iff₀ hs] at h4
      push_cast
      linarith

/-- C6: every raw tile is a square of side tile_size in the projected
system, and the raw tiles jointly cover the projected bounding box, for
every nondegenerate bounding box and positive tile size. -/
theorem make_grid_coverage (x_min x_max y_min y_max tile_size : ℚ)
    (hx : x_min < x_max) (hy : y_min < y_max) (hs : 0 < tile_size) :
    (∀ t ∈ make_grid (rectCorners x_min y_min x_max y_max) tile_size,
        t.x1 - t.x0 = tile_size ∧ t.y1 - t.y0 = tile_size)
      ∧ ∀ x y : ℚ, x_min ≤ x → x ≤ x_max → y_min ≤ y → y ≤ y_max →
          ∃ t ∈ make_grid (rectCorners x_min y_min x_max y_max) tile_size,
            t.x0 ≤ x ∧ x ≤ t.x1 ∧ t.y0 ≤ y ∧ y ≤ t.y1 := by
  rw [make_grid_rect _ _ _ _ _ hx.le hy.le]
  constructor
  · intro t ht
    obtain ⟨y_i, _, x_i, _, rfl⟩ := mem_make_grid_raw.mp ht
    constructor
    · show x_min + x_i * tile_size + tile_size - (x_min + x_i * tile_size) = tile_size
      ring
    · show y_min + y_i * tile_size + tile_size - (y_min + y_i * tile_size) = tile_size
      ring
  · intro x y hx1 hx2 hy1 hy2
    obtain ⟨x_i, hxi0, hxin, hxl, hxu⟩ := cover_index x_min x_max tile_size x hs hx hx1 hx2
    obtain ⟨y_i, hyi0, hyin, hyl, hyu⟩ := cover_index y_min y_max tile_size y hs hy hy1 hy2
    refine ⟨tileAt x_min y_min tile_size x_i y_i,
      mem_make_grid_raw.mpr ⟨y_i, ⟨hyi0, hyin⟩, x_i, ⟨hxi0, hxin⟩, rfl⟩, ?_⟩
    exact ⟨hxl, hxu, hyl, hyu⟩

/-- Witness for C6: in the 1000 x 1000 box with tile size 400, the point
(500, 500) is covered by some raw tile. -/
theorem make_grid_coverage_witness :
    ∃ t ∈ make_grid (rectCorners 0 0 1000 1000) 400,
      t.x0 ≤ 500 ∧ (500 : ℚ) ≤ t.x1 ∧ t.y0 ≤ 500 ∧ (500 : ℚ) ≤ t.y1 :=
  (make_grid_coverage 0 1000 0 1000 400
    (by norm_num) (by norm_num) (by norm_num)).2 500 500
    (by norm_num) (by norm_num) (by norm_num) (by norm_num)

end CloudGen

namespace CloudGen

/-! ## Component Filter: remove_small_components

scipy.ndimage.label with generate_binary_structure(2, 2) partitions the
nonzero pixels of a 2-D array into maximal 8-connected components; the code
copies the input (np.copy) and zeroes, in the copy, every component whose
pixel count is below min_size.  Components are embedded as saturations of
the one-step 8-neighbor expansion inside the foreground; saturation is
reached after h*w expansion steps, the number of pixels of the grid. -/

/-- A numpy 2-D array of natural values (the binary mask arrays hold 0/1). -/
abbrev NArr (h w : ℕ) := Fin h → Fin w → ℕ

/-- The foreground pixels of the array: its nonzero entries, as
scipy.ndimage.label treats them. -/
def fgSet {h w : ℕ} (m : NArr h w) : Finset (Fin h × Fin w) :=
  Finset.univ.filter (fun p => m p.1 p.2 ≠ 0)

/-- 8-connectivity (generate_binary_structure(2, 2)): distinct pixels whose
row and column indices each differ by at most one. -/
def adj8 {h w : ℕ} (p q : Fin h × Fin w) : Prop :=
  p ≠ q ∧ ((p.1 : ℤ) - (q.1 : ℤ)).natAbs ≤ 1 ∧ ((p.2 : ℤ) - (q.2 : ℤ)).natAbs ≤ 1

instance {h w : ℕ} (p q : Fin h × Fin w) : Decidable (adj8 p q) := by
  unfold adj8
  infer_instance

theorem adj8_symm {h w : ℕ} {p q : Fin h × Fin w} (hpq : adj8 p q) : adj8 q p := by
  obtain ⟨hne, h1, h2⟩ := hpq
  exact ⟨fun hcon => hne hcon.symm, by omega, by omega⟩

/-- One expansion step: add the foreground pixels 8-adjacent to the set. -/
def growStep {h w : ℕ} (fg s : Finset (Fin h × Fin w)) : Finset (Fin h × Fin w) :=
  s ∪ fg.filter (fun q => ∃ p ∈ s, adj8 p q)

/-- n expansion steps from the seed pixel (empty if the seed is background). -/
def reachN {h w : ℕ} (fg : Finset (Fin h × Fin w)) (p : Fin h × Fin w) :
    ℕ → Finset (Fin h × Fin w)
  | 0 => if p ∈ fg then {p} else ∅
  | n + 1 => growStep fg (reachN fg p n)

/-- The maximal 8-connected component of the seed pixel inside the
foreground: the expansion saturated over the pixel count of the grid. -/
def component {h w : ℕ} (fg : Finset (Fin h × Fin w)) (p : Fin h × Fin w) :
    Finset (Fin h × Fin w) :=
  reachN fg p (h * w)

/-- All pixels of the grid in row-major order. -/
def allPixels (h w : ℕ) : List (Fin h × Fin w) :=
  (List.finRange h).flatMap (fun i => (List.finRange w).map (fun j => (i, j)))

/-- The labeled components, one set per label scipy.ndimage.label assigns:
the distinct components of the foreground pixels. -/
def componentList {h w : ℕ} (m : NArr h w) : List (Finset (Fin h × Fin w)) :=
  (((allPixels h w).filter (fun p => decide (p ∈ fgSet m))).map
    (fun p => component (fgSet m) p)).dedup

/-- output[component_mask] = 0 for one component. -/
def zeroOn {h w : ℕ} (out : NArr h w) (c : Finset (Fin h × Fin w)) : NArr h w :=
  fun i j => if (i, j) ∈ c then 0 else out i j

/-- remove_small_components: copy the input, then for each labeled component
with np.sum(component_mask) < min_size zero it in the copy; the copy is
returned. -/
def remove_small_components {h w : ℕ} (mask_array : NArr h w) (min_size : ℕ) :
    NArr h w :=
  (componentList mask_array).foldl
    (fun out c => if c.card < min_size then zeroOn out c else out) mask_array

theorem reachN_subset_fg {h w : ℕ} (fg : Finset (Fin h × Fin w))
    (p : Fin h × Fin w) (n : ℕ) : reachN fg p n ⊆ fg := by
  induction n with
  | zero =>
    by_cases hp : p ∈ fg
    · rw [reachN, if_pos hp]
      exact Finset.singleton_subset_iff.mpr hp
    · simp [reachN, hp]
  | succ n ih =>
    exact Finset.union_subset ih (Finset.filter_subset _ _)

theorem reachN_subset_succ {h w : ℕ} (fg : Finset (Fin h × Fin w))
    (p : Fin h × Fin w) (n : ℕ) : reachN fg p n ⊆ reachN fg p (n + 1) :=
  Finset.subset_union_left

theorem reachN_mono {h w : ℕ} (fg : Finset (Fin h × Fin w)) (p : Fin h × Fin w)
    {m n : ℕ} (hmn : m ≤ n) : reachN fg p m ⊆ reachN fg p n := by
  induction n with
  | zero =>
    rw [Nat.le_zero.mp hmn]
  | succ n ih =>
    rcases Nat.lt_or_ge m (n + 1) with hlt | hge
    · exact (ih (by omega)).trans (reachN_subset_succ fg p n)
    · rw [Nat.le_antisymm hmn hge]

theorem mem_reachN_zero {h w : ℕ} {fg : Finset (Fin h × Fin w)}
    {p : Fin h × Fin w} (hp : p ∈ fg) : p ∈ reachN fg p 0 := by
  simp [reachN, hp]

theorem reachN_stab {h w : ℕ} (fg : Finset (Fin h × Fin w)) (p : Fin h × Fin w)
    {k : ℕ} (hfix : reachN fg p (k + 1) = reachN fg p k) {m : ℕ} (hkm : k ≤ m) :
    reachN fg p m = reachN fg p k := by
  induction m with
  | zero =>
    rw [Nat.le_zero.mp hkm]
  | succ m ih =>
    rcases Nat.lt_or_ge k (m + 1) with hlt | hge
    · have hm : reachN fg p m = reachN fg p k := ih (by omega)
      calc reachN fg p (m + 1) = growStep fg (reachN fg p m) := rfl
        _ = growStep fg (reachN fg p k) := by rw [hm]
        _ = reachN fg p (k + 1) := rfl
        _ = reachN fg p k := hfix
    · rw [Nat.le_antisymm hkm hge]

end CloudGen

namespace CloudGen

theorem growStep_empty {h w : ℕ} (fg : Finset (Fin h × Fin w)) :
    growStep fg ∅ = ∅ := by
  simp [growStep]

theorem reachN_of_not_mem {h w : ℕ} (fg : Finset (Fin h × Fin w))
    (p : Fin h × Fin w) (hp : p ∉ fg) (n : ℕ) : reachN fg p n = ∅ := by
  induction n with
  | zero => simp [reachN, hp]
  | succ n ih =>
    show growStep fg (reachN fg p n) = ∅
    rw [ih, growStep_empty]

theorem card_reachN_ge {h w : ℕ} (fg : Finset (Fin h × Fin w))
    (p : Fin h × Fin w) (hp : p ∈ fg) (n : ℕ)
    (hne : ∀ k < n, reachN fg p (k + 1) ≠ reachN fg p k) :
    n + 1 ≤ (reachN fg p n).card := by
  induction n with
  | zero =>
    rw [reachN, if_pos hp]
    simp
  | succ n ih =>
    have h1 : n + 1 ≤ (reachN fg p n).card := ih (fun k hk => hne k (by omega))
    have hss : reachN fg p n ⊂ reachN fg p (n + 1) :=
      Finset.ssubset_iff_subset_ne.mpr
        ⟨reachN_subset_succ fg p n, fun hcon => hne n (by omega) hcon.symm⟩
    have h2 := Finset.card_lt_card hss
    omega

theorem growStep_component {h w : ℕ} (fg : Finset (Fin h × Fin w))
    (p : Fin h × Fin w) : growStep fg (component fg p) = component fg p := by
  by_cases hp : p ∈ fg
  · have hex : ∃ k ≤ h * w, reachN fg p (k + 1) = reachN fg p k := by
      by_contra hcon
      push_neg at hcon
      have h1 : h * w + 1 ≤ (reachN fg p (h * w)).card :=
        card_reachN_ge fg p hp (h * w) (fun k hk => hcon k (by omega))
      have h2 : (reachN fg p (h * w)).card ≤ h * w := by
        calc (reachN fg p (h * w)).card ≤ Fintype.card (Fin h × Fin w) :=
              Finset.card_le_univ _
          _ = h * w := by simp
      omega
    obtain ⟨k, hk, hfix⟩ := hex
    have e1 : reachN fg p (h * w) = reachN fg p k := reachN_stab fg p hfix hk
    have e2 : reachN fg p (h * w + 1) = reachN fg p k :=
      reachN_stab fg p hfix (by omega)
    calc growStep fg (component fg p) = reachN fg p (h * w + 1) := rfl
      _ = reachN fg p k := e2
      _ = reachN fg p (h * w) := e1.symm
      _ = component fg p := rfl
  · show growStep fg (reachN fg p (h * w)) = reachN fg p (h * w)
    rw [reachN_of_not_mem fg p hp, growStep_empty]

/-- The restriction of 8-adjacency to foreground pixels. -/
def fgAdj {h w : ℕ} (fg : Finset (Fin h × Fin w)) (p q : Fin h × Fin w) : Prop :=
  p ∈ fg ∧ q ∈ fg ∧ adj8 p q

theorem fgAdj_symmetric {h w : ℕ} (fg : Finset (Fin h × Fin w)) :
    Symmetric (fgAdj fg) :=
  fun _ _ hab => ⟨hab.2.1, hab.1, adj8_symm hab.2.2⟩

theorem mem_reachN_rtg {h w : ℕ} {fg : Finset (Fin h × Fin w)}
    {p q : Fin h × Fin w} {n : ℕ} (hq : q ∈ reachN fg p n) :
    p ∈ fg ∧ q ∈ fg ∧ Relation.ReflTransGen (fgAdj fg) p q := by
  induction n generalizing q with
  | zero =>
    by_cases hp : p ∈ fg
    · rw [reachN, if_pos hp, Finset.mem_singleton] at hq
      subst hq
      exact ⟨hp, hp, Relation.ReflTransGen.refl⟩
    · rw [reachN, if_neg hp] at hq
      exact absurd hq (Finset.not_mem_empty q)
  | succ n ih =>
    have hq' : q ∈ growStep fg (reachN fg p n) := hq
    rw [growStep, Finset.mem_union] at hq'
    rcases hq' with hq' | hq'
    · exact ih hq'
    · rw [Finset.mem_filter] at hq'
      obtain ⟨hqfg, a, ha, hadj⟩ := hq'
      obtain ⟨hp, hafg, hrtg⟩ := ih ha
      exact ⟨hp, hqfg, hrtg.tail ⟨hafg, hqfg, hadj⟩⟩

theorem rtg_mem_component {h w : ℕ} {fg : Finset (Fin h × Fin w)}
    {p q : Fin h × Fin w} (hp : p ∈ fg)
    (hrtg : Relation.ReflTransGen (fgAdj fg) p q) : q ∈ component fg p := by
  induction hrtg with
  | refl => exact reachN_mono fg p (Nat.zero_le _) (mem_reachN_zero hp)
  | @tail b c hab hbc ih =>
    have hc : c ∈ growStep fg (component fg p) := by
      rw [growStep, Finset.mem_union]
      right
      rw [Finset.mem_filter]
      exact ⟨hbc.2.1, b, ih, hbc.2.2⟩
    rwa [growStep_component] at hc

theorem mem_component_iff {h w : ℕ} {fg : Finset (Fin h × Fin w)}
    {p q : Fin h × Fin w} :
    q ∈ component fg p
      ↔ p ∈ fg ∧ q ∈ fg ∧ Relation.ReflTransGen (fgAdj fg) p q := by
  constructor
  · exact mem_reachN_rtg
  · rintro ⟨hp, _, hrtg⟩
    exact rtg_mem_component hp hrtg

theorem mem_component_self {h w : ℕ} {fg : Finset (Fin h × Fin w)}
    {p : Fin h × Fin w} (hp : p ∈ fg) : p ∈ component fg p :=
  mem_component_iff.mpr ⟨hp, hp, Relation.ReflTransGen.refl⟩

theorem component_subset_fg {h w : ℕ} (fg : Finset (Fin h × Fin w))
    (p : Fin h × Fin w) : component fg p ⊆ fg :=
  reachN_subset_fg fg p (h * w)

theorem component_eq_of_mem {h w : ℕ} {fg : Finset (Fin h × Fin w)}
    {p q : Fin h × Fin w} (hq : q ∈ component fg p) :
    component fg q = component fg p := by
  obtain ⟨hp, hqfg, hrtg⟩ := mem_component_iff.mp hq
  ext x
  rw [mem_component_iff, mem_component_iff]
  constructor
  · rintro ⟨_, hx, hqx⟩
    exact ⟨hp, hx, hrtg.trans hqx⟩
  · rintro ⟨_, hx, hpx⟩
    exact ⟨hqfg, hx,
      (Relation.ReflTransGen.symmetric (fgAdj_symmetric fg) hrtg).trans hpx⟩

theorem mem_allPixels {h w : ℕ} (p : Fin h × Fin w) : p ∈ allPixels h w := by
  rcases p with ⟨i, j⟩
  rw [allPixels, List.mem_flatMap]
  exact ⟨i, List.mem_finRange i, List.mem_map.mpr ⟨j, List.mem_finRange j, rfl⟩⟩

theorem mem_componentList_iff {h w : ℕ} {m : NArr h w}
    {c : Finset (Fin h × Fin w)} :
    c ∈ componentList m ↔ ∃ p ∈ fgSet m, c = component (fgSet m) p := by
  rw [componentList, List.mem_dedup, List.mem_map]
  constructor
  · rintro ⟨p, hp, rfl⟩
    rw [List.mem_filter, decide_eq_true_eq] at hp
    exact ⟨p, hp.2, rfl⟩
  · rintro ⟨p, hp, rfl⟩
    exact ⟨p, List.mem_filter.mpr ⟨mem_allPixels p, decide_eq_true_eq.mpr hp⟩, rfl⟩

end CloudGen

namespace CloudGen

theorem foldl_zero_apply {h w : ℕ} (k : ℕ) (cs : List (Finset (Fin h × Fin w)))
    (out : NArr h w) (i : Fin h) (j : Fin w) :
    (cs.foldl (fun out c => if c.card < k then zeroOn out c else out) out) i j
      = if ∃ c ∈ cs, (i, j) ∈ c ∧ c.card < k then 0 else out i j := by
  induction cs generalizing out with
  | nil => simp
  | cons c cs ih =>
    rw [List.foldl_cons, ih, apply_ite (fun f : NArr h w => f i j)]
    by_cases hex : ∃ c' ∈ cs, (i, j) ∈ c' ∧ c'.card < k
    · obtain ⟨c', hc', hm, hsize⟩ := hex
      rw [if_pos ⟨c', hc', hm, hsize⟩,
        if_pos ⟨c', List.mem_cons_of_mem c hc', hm, hsize⟩]
    · rw [if_neg hex]
      by_cases hc : (i, j) ∈ c ∧ c.card < k
      · rw [if_pos hc.2,
          if_pos (show ∃ c' ∈ c :: cs, (i, j) ∈ c' ∧ c'.card < k from
            ⟨c, List.mem_cons_self c cs, hc.1, hc.2⟩)]
        simp [zeroOn, hc.1]
      · have hout : ¬ ∃ c' ∈ c :: cs, (i, j) ∈ c' ∧ c'.card < k := by
          rintro ⟨c', hc', hm, hsize⟩
          rcases List.mem_cons.mp hc' with rfl | hmem
          · exact hc ⟨hm, hsize⟩
          · exact hex ⟨c', hmem, hm, hsize⟩
        rw [if_neg hout]
        by_cases hsz : c.card < k
        · rw [if_pos hsz]
          have hni : (i, j) ∉ c := fun hm => hc ⟨hm, hsz⟩
          simp [zeroOn, hni]
        · rw [if_neg hsz]

/-- Pointwise behavior of remove_small_components: a pixel is zeroed exactly
when it is foreground and its maximal 8-connected component has fewer than
min_size pixels; otherwise its value is kept. -/
theorem remove_small_components_apply {h w : ℕ} (m : NArr h w) (k : ℕ)
    (i : Fin h) (j : Fin w) :
    remove_small_components m k i j
      = if m i j ≠ 0 ∧ (component (fgSet m) (i, j)).card < k then 0
        else m i j := by
  rw [remove_small_components, foldl_zero_apply]
  have hiff : (∃ c ∈ componentList m, (i, j) ∈ c ∧ c.card < k)
      ↔ (m i j ≠ 0 ∧ (component (fgSet m) (i, j)).card < k) := by
    constructor
    · rintro ⟨c, hc, hm, hsize⟩
      obtain ⟨p, hp, rfl⟩ := mem_componentList_iff.mp hc
      have hfg : (i, j) ∈ fgSet m := component_subset_fg _ _ hm
      constructor
      · simpa [fgSet] using hfg
      · rw [component_eq_of_mem hm]
        exact hsize
    · rintro ⟨hnz, hsize⟩
      have hfg : (i, j) ∈ fgSet m := by simp [fgSet, hnz]
      exact ⟨component (fgSet m) (i, j),
        mem_componentList_iff.mpr ⟨(i, j), hfg, rfl⟩,
        mem_component_self hfg, hsize⟩
  rw [if_congr hiff rfl rfl]

theorem fgSet_remove {h w : ℕ} (m : NArr h w) (k : ℕ) {p : Fin h × Fin w} :
    p ∈ fgSet (remove_small_components m k)
      ↔ p ∈ fgSet m ∧ k ≤ (component (fgSet m) p).card := by
  rcases p with ⟨i, j⟩
  have hmem : ∀ mm : NArr h w, ((i, j) ∈ fgSet mm ↔ mm i j ≠ 0) := by
    intro mm
    simp [fgSet]
  rw [hmem, hmem, remove_small_components_apply]
  by_cases hc : m i j ≠ 0 ∧ (component (fgSet m) (i, j)).card < k
  · rw [if_pos hc]
    obtain ⟨hnz, hlt⟩ := hc
    constructor
    · intro hcon
      exact absurd rfl hcon
    · rintro ⟨_, hk⟩
      omega
  · rw [if_neg hc]
    push_neg at hc
    constructor
    · intro hnz
      exact ⟨hnz, hc hnz⟩
    · intro hand
      exact hand.1

theorem rtg_in_kept {h w : ℕ} (m : NArr h w) (k : ℕ) {p x : Fin h × Fin w}
    (hpk : p ∈ fgSet (remove_small_components m k))
    (hrtg : Relation.ReflTransGen (fgAdj (fgSet m)) p x) :
    Relation.ReflTransGen (fgAdj (fgSet (remove_small_components m k))) p x
      ∧ x ∈ fgSet (remove_small_components m k) := by
  induction hrtg with
  | refl => exact ⟨Relation.ReflTransGen.refl, hpk⟩
  | @tail b c hab hbc ih =>
    obtain ⟨hpfg, hpkcard⟩ := (fgSet_remove m k).mp hpk
    have hrtg_pc : Relation.ReflTransGen (fgAdj (fgSet m)) p c := hab.tail hbc
    have hc_comp : c ∈ component (fgSet m) p := rtg_mem_component hpfg hrtg_pc
    have hceq : component (fgSet m) c = component (fgSet m) p :=
      component_eq_of_mem hc_comp
    have hcf : c ∈ fgSet (remove_small_components m k) :=
      (fgSet_remove m k).mpr ⟨hbc.2.1, by rw [hceq]; exact hpkcard⟩
    exact ⟨ih.1.tail ⟨ih.2, hcf, hbc.2.2⟩, hcf⟩

/-- Removing small components neither splits nor merges the surviving
components: a kept pixel's component in the output equals its component in
the input. -/
theorem component_remove_eq {h w : ℕ} (m : NArr h w) (k : ℕ)
    {p : Fin h × Fin w} (hp : p ∈ fgSet (remove_small_components m k)) :
    component (fgSet (remove_small_components m k)) p
      = component (fgSet m) p := by
  obtain ⟨hpfg, hpcard⟩ := (fgSet_remove m k).mp hp
  apply Finset.Subset.antisymm
  · intro x hx
    obtain ⟨_, hxfg, hrtg⟩ := mem_component_iff.mp hx
    refine mem_component_iff.mpr ⟨hpfg, ((fgSet_remove m k).mp hxfg).1, ?_⟩
    exact hrtg.mono
      (fun a b hab => ⟨((fgSet_remove m k).mp hab.1).1,
        ((fgSet_remove m k).mp hab.2.1).1, hab.2.2⟩)
  · intro x hx
    obtain ⟨_, _, hrtg⟩ := mem_component_iff.mp hx
    obtain ⟨hrtg', hxf⟩ := rtg_in_kept m k hp hrtg
    exact mem_component_iff.mpr ⟨hp, hxf, hrtg'⟩

/-- C3: remove_small_components zeroes exactly the pixels of maximal
8-connected foreground components of size below min_size, keeps pixels of
larger components unchanged, never makes a background pixel foreground, and
every connected component of the output has at least min_size pixels. -/
theorem remove_small_components_spec {h w : ℕ} (m : NArr h w) (min_size : ℕ) :
    (∀ (i : Fin h) (j : Fin w), m i j ≠ 0 →
        (component (fgSet m) (i, j)).card < min_size →
        remove_small_components m min_size i j = 0)
    ∧ (∀ (i : Fin h) (j : Fin w), m i j ≠ 0 →
        min_size ≤ (component (fgSet m) (i, j)).card →
        remove_small_components m min_size i j = m i j)
    ∧ (∀ (i : Fin h) (j : Fin w), m i j = 0 →
        remove_small_components m min_size i j = 0)
    ∧ (∀ p ∈ fgSet (remove_small_components m min_size),
        min_size ≤ (component (fgSet (remove_small_components m min_size)) p).card) := by
  refine ⟨?_, ?_, ?_, ?_⟩
  · intro i j hnz hsmall
    rw [remove_small_components_apply, if_pos ⟨hnz, hsmall⟩]
  · intro i j hnz hbig
    rw [remove_small_components_apply, if_neg (by rintro ⟨_, hlt⟩; omega)]
  · intro i j h0
    rw [remove_small_components_apply, if_neg (by rintro ⟨hnz, _⟩; exact hnz h0)]
    exact h0
  · intro p hp
    rw [component_remove_eq m min_size hp]
    exact ((fgSet_remove m min_size).mp hp).2

/-- A 1 x 1 all-foreground mask: one isolated pixel. -/
def singlePixelMask : NArr 1 1 := fun _ _ => 1

/-- Witness for C3: a single isolated foreground pixel with min_size = 8 is
removed (its component has 1 < 8 pixels). -/
theorem remove_small_components_spec_witness :
    remove_small_components singlePixelMask 8 0 0 = 0 :=
  (remove_small_components_spec singlePixelMask 8).1 0 0 (by decide) (by decide)

end CloudGen

namespace CloudGen

/-! ## Frame behavior of remove_small_components

The function mutates only output = np.copy(mask_array); the caller's array
is untouched.  numpy arrays are mutable buffers, so the copy/mutation
discipline is made explicit with a heap of arrays: addresses index a store,
np.copy allocates a fresh cell, output[component_mask] = 0 writes the
output cell in place. -/

/-- A heap of numpy arrays: a store indexed by addresses, plus the next
fresh address. -/
structure Heap (h w : ℕ) where
  store : ℕ → NArr h w
  next : ℕ

/-- Read the array at an address. -/
def readArr {h w : ℕ} (σ : Heap h w) (a : ℕ) : NArr h w := σ.store a

/-- Overwrite the array at an address in place. -/
def writeArr {h w : ℕ} (σ : Heap h w) (a : ℕ) (g : NArr h w) : Heap h w :=
  ⟨Function.update σ.store a g, σ.next⟩

/-- np.copy: allocate a fresh cell holding the given values and return its
address. -/
def allocArr {h w : ℕ} (σ : Heap h w) (g : NArr h w) : Heap h w × ℕ :=
  (⟨Function.update σ.store σ.next g, σ.next + 1⟩, σ.next)

/-- remove_small_components with the numpy mutations explicit: read the
input array, allocate output = np.copy(mask_array), then for every labeled
component with np.sum(component_mask) < min_size write the zeroed output
back into the output cell; the output address is returned. -/
def remove_small_components_heap {h w : ℕ} (σ : Heap h w) (aMask : ℕ)
    (min_size : ℕ) : Heap h w × ℕ :=
  let mask_array := readArr σ aMask
  let alloc := allocArr σ mask_array
  let final := (componentList mask_array).foldl
    (fun τ c => if c.card < min_size
      then writeArr τ alloc.2 (zeroOn (readArr τ alloc.2) c)
      else τ) alloc.1
  (final, alloc.2)

theorem foldl_heap_frame {h w : ℕ} (k : ℕ) (cs : List (Finset (Fin h × Fin w)))
    (τ : Heap h w) (aOut b : ℕ) (hne : b ≠ aOut) :
    readArr (cs.foldl (fun τ c => if c.card < k
        then writeArr τ aOut (zeroOn (readArr τ aOut) c) else τ) τ) b
      = readArr τ b := by
  induction cs generalizing τ with
  | nil => rfl
  | cons c cs ih =>
    rw [List.foldl_cons, ih]
    by_cases hsz : c.card < k
    · rw [if_pos hsz]
      show Function.update τ.store aOut _ b = τ.store b
      rw [Function.update_noteq hne]
    · rw [if_neg hsz]

theorem foldl_heap_out {h w : ℕ} (k : ℕ) (cs : List (Finset (Fin h × Fin w)))
    (τ : Heap h w) (aOut : ℕ) :
    readArr (cs.foldl (fun τ c => if c.card < k
        then writeArr τ aOut (zeroOn (readArr τ aOut) c) else τ) τ) aOut
      = cs.foldl (fun out c => if c.card < k then zeroOn out c else out)
          (readArr τ aOut) := by
  induction cs generalizing τ with
  | nil => rfl
  | cons c cs ih =>
    rw [List.foldl_cons, List.foldl_cons, ih]
    congr 1
    by_cases hsz : c.card < k
    · rw [if_pos hsz, if_pos hsz]
      show Function.update τ.store aOut _ aOut = _
      rw [Function.update_same]
    · rw [if_neg hsz, if_neg hsz]

/-- C10: after the call, the input cell holds exactly its pre-call values
(all zeroing goes to the freshly allocated copy), and the returned address
holds the filtered mask. -/
theorem remove_small_components_heap_frame {h w : ℕ} (σ : Heap h w)
    (aMask min_size : ℕ) (hvalid : aMask < σ.next) :
    readArr (remove_small_components_heap σ aMask min_size).1 aMask
        = readArr σ aMask
      ∧ readArr (remove_small_components_heap σ aMask min_size).1
          (remove_small_components_heap σ aMask min_size).2
        = remove_small_components (readArr σ aMask) min_size := by
  have hne : aMask ≠ σ.next := by omega
  simp only [remove_small_components_heap, allocArr]
  constructor
  · rw [foldl_heap_frame _ _ _ _ _ hne]
    show Function.update σ.store σ.next _ aMask = σ.store aMask
    rw [Function.update_noteq hne]
  · rw [foldl_heap_out]
    have hinit : readArr (⟨Function.update σ.store σ.next (readArr σ aMask),
        σ.next + 1⟩ : Heap h w) σ.next = readArr σ aMask := by
      show Function.update σ.store σ.next (readArr σ aMask) σ.next = _
      rw [Function.update_same]
    rw [hinit]
    rfl

/-- Witness for C10: on a concrete one-cell heap holding the single-pixel
mask, the input cell is unchanged by the call. -/
theorem remove_small_components_heap_frame_witness :
    readArr (remove_small_components_heap
        (⟨fun _ => singlePixelMask, 1⟩ : Heap 1 1) 0 8).1 0
      = readArr (⟨fun _ => singlePixelMask, 1⟩ : Heap 1 1) 0 :=
  (remove_small_components_heap_frame (⟨fun _ => singlePixelMask, 1⟩ : Heap 1 1)
    0 8 (by norm_num)).1

end CloudGen
